import Mathlib

/-!
# Verification of the pylops linear-regression / IRLS example

Shallow embedding of `src/examples/plot_linearregr.py` and of the pylops
core it exercises (`pylops.LinearRegression`, the least-squares solve
behind `/`, and `pylops.optimization.sparsity.IRLS`).  Numerical vectors
are embedded as `List ℚ` and all arithmetic is exact rational arithmetic;
"within floating-point tolerance" claims are settled by exact comparisons
against the stated tolerances (squared, to avoid square roots).

The pylops library sources are not part of the repository snapshot (only
the example script is), so the operator and the two solvers are modelled
from the specification, as marked on each definition.
-/

namespace PylopsLinRegr

/-! ## Data model -/

/-- Dot product of two rational vectors (elementwise product, summed). -/
def dot (u v : List ℚ) : ℚ :=
  (List.zipWith (· * ·) u v).sum

/-- Squared L2 norm of a rational vector. -/
def normSq (v : List ℚ) : ℚ :=
  dot v v

/-- Coefficient pair `(x0, x1)`: intercept and gradient, the model vector of
the linear-regression operator (`n = 2`). -/
structure Coeffs where
  x0 : ℚ
  x1 : ℚ
  deriving DecidableEq, Repr

/-- Squared L2 norm of a coefficient pair. -/
def Coeffs.normSq (p : Coeffs) : ℚ :=
  p.x0 ^ 2 + p.x1 ^ 2

/-- Squared L2 distance between coefficient pairs. -/
def Coeffs.distSq (p q : Coeffs) : ℚ :=
  (p.x0 - q.x0) ^ 2 + (p.x1 - q.x1) ^ 2

/-- Inner product on the model space (`n = 2`). -/
def Coeffs.inner (p q : Coeffs) : ℚ :=
  p.x0 * q.x0 + p.x1 * q.x1

/-! ## Operators -/

/-- Modelled from the spec: forward application of the
`pylops.LinearRegression` operator (missing from `src/`, only constructed
by the example).  Given the time axis `t`, maps coefficients `(x0, x1)` to
the data vector with entries `x0 + x1 * t_i`. -/
def forward (t : List ℚ) (p : Coeffs) : List ℚ :=
  t.map (fun ti => p.x0 + p.x1 * ti)

/-- Modelled from the spec: adjoint application of the
`pylops.LinearRegression` operator (missing from `src/`).  Maps a data
vector `y` to the coefficient-space vector `(Σ y_i, Σ t_i y_i)`. -/
def adjoint (t y : List ℚ) : Coeffs :=
  ⟨(List.zipWith (fun _ yi => yi) t y).sum,
   (List.zipWith (fun ti yi => ti * yi) t y).sum⟩

/-- Modelled from the spec: forward application of the WeightedOperator
decorator (`forward(x) = W * inner.forward(x)` elementwise), instantiated
at the linear-regression inner operator. -/
def wforward (w t : List ℚ) (p : Coeffs) : List ℚ :=
  List.zipWith (· * ·) w (forward t p)

/-- Modelled from the spec: adjoint application of the WeightedOperator
decorator (`adjoint(y) = inner.adjoint(W * y)`), instantiated at the
linear-regression inner operator. -/
def wadjoint (w t y : List ℚ) : Coeffs :=
  adjoint t (List.zipWith (· * ·) w y)

/-- The time axis of the example: `t = 0, 1, ..., N-1`. -/
def tAxis (N : ℕ) : List ℚ :=
  (List.range N).map (fun i => (i : ℚ))

/-! ## Least-squares solve -/

/-- The normal-equation moment sums of the weighted regression problem:
given weights `w`, time axis `t` and data `y`, returns
`(Σ wᵢ², Σ wᵢ² tᵢ, Σ wᵢ² tᵢ², Σ wᵢ² yᵢ, Σ wᵢ² tᵢ yᵢ)`. -/
def momSums : List ℚ → List ℚ → List ℚ → ℚ × ℚ × ℚ × ℚ × ℚ
  | wi :: w, ti :: t, yi :: y =>
    let s := momSums w t y
    (s.1 + wi ^ 2, s.2.1 + wi ^ 2 * ti, s.2.2.1 + wi ^ 2 * ti ^ 2,
     s.2.2.2.1 + wi ^ 2 * yi, s.2.2.2.2 + wi ^ 2 * ti * yi)
  | _, _, _ => (0, 0, 0, 0, 0)

/-- The determinant of the (possibly ridge-regularized) weighted
normal-equation system solved by `wlstsq`. -/
def normalDet (epsI : ℚ) (w t y : List ℚ) : ℚ :=
  ((momSums w t y).1 + epsI ^ 2) * ((momSums w t y).2.2.1 + epsI ^ 2) -
    (momSums w t y).2.1 ^ 2

/-- Modelled from the spec: the weighted least-squares solve used by both
the `/` entry point and each IRLS round (the LSQR solver itself is missing
from `src/`; the spec states it approximates
`argmin ‖W(Ax − y)‖₂² + epsI² ‖x‖₂²`, which for the two-column
full-rank regression operator we model as the exact minimizer, obtained by
Cramer's rule on the normal equations `(AᵀW²A + epsI² I) x = AᵀW²y`). -/
def wlstsq (epsI : ℚ) (w t y : List ℚ) : Coeffs :=
  let s := momSums w t y
  let d0 := s.1 + epsI ^ 2
  let s1 := s.2.1
  let d2 := s.2.2.1 + epsI ^ 2
  let b0 := s.2.2.2.1
  let b1 := s.2.2.2.2
  let det := d0 * d2 - s1 ^ 2
  ⟨(d2 * b0 - s1 * b1) / det, (d0 * b1 - s1 * b0) / det⟩

/-- Modelled from the spec: the plain (unweighted, undamped) least-squares
solve behind the `/` operation of the example (`xest = LRop / y`): all
weights one, no ridge term. -/
def lstsq (t y : List ℚ) : Coeffs :=
  wlstsq 0 (List.replicate y.length 1) t y

/-- Residual `r = A x − y` of a coefficient estimate on the data `y`. -/
def residual (t y : List ℚ) (p : Coeffs) : List ℚ :=
  List.zipWith (fun ti yi => p.x0 + p.x1 * ti - yi) t y

/-- Modelled from the spec: result of invoking the LSQR solver — the
solution estimate together with an iteration count and the achieved
residual norm (squared here, to stay inside ℚ). -/
structure LSQRResult where
  x : Coeffs
  iters : ℕ
  rnormSq : ℚ
  deriving DecidableEq, Repr

/-- Modelled from the spec: the LSQRSolver object, holding the operator (a
linear-regression operator is determined by its time axis) and the
damping factor. -/
structure LSQRSolver where
  t : List ℚ
  damp : ℚ
  deriving DecidableEq, Repr

/-- Modelled from the spec: invoking an LSQRSolver.  The Krylov recurrence
is not detailed by the spec, so the model returns the exact minimizer of
the damped problem; on the two-dimensional model space LSQR reaches it in
at most `n = 2` iterations, which is the iteration count reported. -/
def LSQRSolver.invoke (s : LSQRSolver) (y : List ℚ) : LSQRResult :=
  let x := wlstsq s.damp (List.replicate y.length 1) s.t y
  ⟨x, 2, normSq (residual s.t y x)⟩

/-- Modelled from the spec: the convenience least-squares entry point
behind the example's `/` operation (`xest = LRop / y`), written directly
as the undamped exact solve packaged with its iteration count and achieved
(squared) residual norm. -/
def solveLeastSquares (t y : List ℚ) : LSQRResult :=
  ⟨lstsq t y, 2, normSq (residual t y (lstsq t y))⟩

/-- The `/` operation of the example, returning just the estimate. -/
def opDiv (t y : List ℚ) : Coeffs :=
  (solveLeastSquares t y).x

/-! ## IRLS -/

/-- Modelled from the spec: the IRLS weight recomputation in the
`threshR = False` branch used by the example: `wᵢ = 1 / max (|rᵢ|, epsR)`
(the thresholded `threshR = True` variant is left unspecified by the spec
and is never exercised by the example, so it is not modelled). -/
def recomputeWeights (epsR : ℚ) (r : List ℚ) : List ℚ :=
  r.map (fun ri => 1 / max |ri| epsR)

/-- A post-step lifecycle event emitted to the callbacks: the round index
`iiter`, the round's solution estimate, and the weight vector that was used
by that round's weighted solve. -/
structure StepEvent where
  iiter : ℕ
  x : Coeffs
  rw : List ℚ
  deriving DecidableEq, Repr

/-- Result of an IRLS solve: final estimate, the estimate of the round
before it (meaningful when the tolerance check fired), number of rounds
actually executed, the emitted post-step events, and whether the
tolerance-based convergence check (rather than round exhaustion) stopped
the loop. -/
structure IRLSResult where
  x : Coeffs
  xprev : Coeffs
  rounds : ℕ
  events : List StepEvent
  converged : Bool
  deriving DecidableEq, Repr

/-- Modelled from the spec: one pass of the IRLS outer loop
(`pylops.optimization.sparsity.IRLS.solve`, missing from `src/`).
`fuel` is the number of rounds still allowed, `k` the index of the next
round, `w` the current weight vector and `xprev` the previous round's
estimate.  Each round solves the weighted problem, recomputes weights from
the residual, emits a post-step event carrying the weights it *used*, and
stops once the relative change `‖x_k − x_{k-1}‖ / ‖x_k‖` falls below
`tolIRLS` (checked in squared form, for `k > 0` only) or the fuel runs
out. -/
def irlsLoop (t y : List ℚ) (epsR epsI tolIRLS : ℚ) :
    ℕ → ℕ → List ℚ → Coeffs → IRLSResult
  | 0, k, _, xprev => ⟨xprev, xprev, k, [], false⟩
  | fuel + 1, k, w, xprev =>
    let x := wlstsq epsI w t y
    let w' := recomputeWeights epsR (residual t y x)
    let ev : StepEvent := ⟨k, x, w⟩
    if 0 < k ∧ Coeffs.distSq x xprev < tolIRLS ^ 2 * Coeffs.normSq x then
      ⟨x, xprev, k + 1, [ev], true⟩
    else
      let r := irlsLoop t y epsR epsI tolIRLS fuel (k + 1) w' x
      ⟨r.x, r.xprev, r.rounds, ev :: r.events, r.converged⟩

/-- Modelled from the spec: `pylops.optimization.sparsity.IRLS.solve`
(missing from `src/`), as invoked by the example with `threshR=False`.
Initializes the weight vector to all ones (length `m = y.length`) and runs
up to `nouter` rounds. -/
def irlsSolve (t y : List ℚ) (nouter : ℕ) (epsR epsI tolIRLS : ℚ) :
    IRLSResult :=
  irlsLoop t y epsR epsI tolIRLS nouter 0 (List.replicate y.length 1) ⟨0, 0⟩

/-- Every event after the first carries the weight vector recomputed (by
the `threshR = False` formula) from the residual of the estimate in the
event just before it. -/
def weightsChainOK (t y : List ℚ) (epsR : ℚ) : List StepEvent → Prop
  | [] => True
  | e :: rest =>
    (∀ e2, rest.head? = some e2 →
      e2.rw = recomputeWeights epsR (residual t y e.x)) ∧
    weightsChainOK t y epsR rest

/-- The stopping guard of the IRLS loop: the round index is positive and
the relative change from the previous estimate `xp` is below `tolIRLS`
(stated on squares). -/
def guardHolds (tolIRLS : ℚ) (xp : Coeffs) (e : StepEvent) : Prop :=
  0 < e.iiter ∧ Coeffs.distSq e.x xp < tolIRLS ^ 2 * Coeffs.normSq e.x

/-- At every emitted event except the last, the stopping guard did not
hold against the previous estimate — i.e. the loop never runs past a
satisfied convergence check.  The first argument is the estimate preceding
the first event. -/
def noMissedStop (tolIRLS : ℚ) : Coeffs → List StepEvent → Prop
  | _, [] => True
  | xp, e :: rest =>
    (rest = [] ∨ ¬guardHolds tolIRLS xp e) ∧ noMissedStop tolIRLS e.x rest

/-! ## The example's callback -/

/-- The `CallbackIRLS` observer of the example script
(`src/examples/plot_linearregr.py`): the sample count `n` it is
constructed with and its two recorded histories. -/
structure CallbackIRLS where
  n : ℕ
  xirls_hist : List Coeffs
  rw_hist : List (List ℚ)
  deriving DecidableEq, Repr

/-- `CallbackIRLS.__init__(self, n)` of the example: both histories start
empty. -/
def CallbackIRLS.init (n : ℕ) : CallbackIRLS :=
  ⟨n, [], []⟩

/-- `CallbackIRLS.on_step_end(self, solver, x)` of the example script:
when `solver.iiter > 1` it appends `x` to `xirls_hist` and `solver.rw` to
`rw_hist`; otherwise it appends a freshly constructed all-ones vector of
length `n` to `rw_hist` and records no solution estimate. -/
def CallbackIRLS.on_step_end (cb : CallbackIRLS) (iiter : ℕ) (x : Coeffs)
    (rw : List ℚ) : CallbackIRLS :=
  if 1 < iiter then ⟨cb.n, cb.xirls_hist ++ [x], cb.rw_hist ++ [rw]⟩
  else ⟨cb.n, cb.xirls_hist, cb.rw_hist ++ [List.replicate cb.n 1]⟩

/-- Observing a solve through the callback: fold `on_step_end` over the
post-step events in order. -/
def runCallback (cb : CallbackIRLS) (evs : List StepEvent) : CallbackIRLS :=
  evs.foldl (fun c e => CallbackIRLS.on_step_end c e.iiter e.x e.rw) cb

/-! ## The end-to-end scenario of the example script -/

/-- The example's time axis: `t = np.arange(30)`. -/
def exT : List ℚ :=
  tAxis 30

/-- The example's true coefficients `x = [1.0, 2.0]`. -/
def xTrue : Coeffs :=
  ⟨1, 2⟩

/-- The example's noise-free data `y = LRop * x`. -/
def yClean : List ℚ :=
  forward exT xTrue

/-- The outlier injection of the example (`yn[1] += 40`, `yn[N-2] -= 20`,
with `N = 30`), applied to a data vector. -/
def addOutliers (y : List ℚ) : List ℚ :=
  let y1 := y.set 1 (y.getD 1 0 + 40)
  y1.set 28 (y1.getD 28 0 - 20)

/-- The outlier-contaminated noise-free data of the end-to-end scenario. -/
def yOut : List ℚ :=
  addOutliers yClean

/-! ## Helper lemmas -/

attribute [local semireducible] Rat.add Rat.mul Rat.inv Rat.sub

lemma dot_nil_left (v : List ℚ) : dot [] v = 0 := by
  simp [dot]

lemma dot_nil_right (u : List ℚ) : dot u [] = 0 := by
  cases u <;> simp [dot]

lemma dot_cons (a b : ℚ) (u v : List ℚ) :
    dot (a :: u) (b :: v) = a * b + dot u v := by
  simp [dot]

lemma adjoint_nil_left (y : List ℚ) : adjoint [] y = ⟨0, 0⟩ := by
  simp [adjoint]

lemma adjoint_nil_right (t : List ℚ) : adjoint t [] = ⟨0, 0⟩ := by
  cases t <;> simp [adjoint]

lemma adjoint_cons (ti yi : ℚ) (t y : List ℚ) :
    adjoint (ti :: t) (yi :: y) =
      ⟨yi + (adjoint t y).x0, ti * yi + (adjoint t y).x1⟩ := by
  simp [adjoint]

/-- On data generated by the forward operator, the data-side moment sums
collapse to linear combinations of the Gram-side sums. -/
lemma momSums_forward (w t : List ℚ) (p : Coeffs) :
    (momSums w t (forward t p)).2.2.2.1 =
      (momSums w t (forward t p)).1 * p.x0 +
        (momSums w t (forward t p)).2.1 * p.x1 ∧
    (momSums w t (forward t p)).2.2.2.2 =
      (momSums w t (forward t p)).2.1 * p.x0 +
        (momSums w t (forward t p)).2.2.1 * p.x1 := by
  induction w generalizing t with
  | nil => cases t <;> simp [momSums, forward]
  | cons wi w ih =>
    cases t with
    | nil => simp [momSums, forward]
    | cons ti t =>
      obtain ⟨h1, h2⟩ := ih t
      simp only [forward, List.map_cons, momSums] at h1 h2 ⊢
      refine ⟨?_, ?_⟩
      · rw [h1]; ring
      · rw [h2]; ring

/-- A diagonal weighting can be moved across the dot product. -/
lemma dot_zipWith_mul (w u v : List ℚ) :
    dot (List.zipWith (· * ·) w u) v = dot u (List.zipWith (· * ·) w v) := by
  induction w generalizing u v with
  | nil => simp [dot]
  | cons wi w ih =>
    cases u with
    | nil => simp [dot]
    | cons ui u =>
      cases v with
      | nil => simp [dot_nil_right]
      | cons vi v =>
        simp only [List.zipWith_cons_cons, dot_cons, ih u v]
        ring_nf

/-- Pointwise description of the recomputed weights. -/
lemma recomputeWeights_getD (epsR : ℚ) (r : List ℚ) (i : ℕ)
    (h : i < r.length) :
    (recomputeWeights epsR r).getD i 0 = 1 / max |r.getD i 0| epsR := by
  induction r generalizing i with
  | nil => simp at h
  | cons ri r ih =>
    cases i with
    | zero => simp [recomputeWeights]
    | succ i =>
      simp only [recomputeWeights, List.map_cons, List.getD_cons_succ]
      exact ih i (by simpa using h)

/-- The loop executes at most `fuel` more rounds. -/
lemma irlsLoop_rounds_le (t y : List ℚ) (epsR epsI tol : ℚ) (fuel : ℕ) :
    ∀ (k : ℕ) (w : List ℚ) (xprev : Coeffs),
      (irlsLoop t y epsR epsI tol fuel k w xprev).rounds ≤ k + fuel := by
  induction fuel with
  | zero => intro k w xprev; simp [irlsLoop]
  | succ fuel ih =>
    intro k w xprev
    simp only [irlsLoop]
    split
    · simp
    · have h := ih (k + 1)
        (recomputeWeights epsR (residual t y (wlstsq epsI w t y)))
        (wlstsq epsI w t y)
      simp only []
      omega

/-- Each executed round emits exactly one post-step event. -/
lemma irlsLoop_events_length (t y : List ℚ) (epsR epsI tol : ℚ)
    (fuel : ℕ) :
    ∀ (k : ℕ) (w : List ℚ) (xprev : Coeffs),
      (irlsLoop t y epsR epsI tol fuel k w xprev).rounds =
        k + (irlsLoop t y epsR epsI tol fuel k w xprev).events.length := by
  induction fuel with
  | zero => intro k w xprev; simp [irlsLoop]
  | succ fuel ih =>
    intro k w xprev
    simp only [irlsLoop]
    split
    · simp
    · have h := ih (k + 1)
        (recomputeWeights epsR (residual t y (wlstsq epsI w t y)))
        (wlstsq epsI w t y)
      simp only [List.length_cons]
      omega

/-- If the tolerance check never fired, the loop exhausts its fuel. -/
lemma irlsLoop_not_converged (t y : List ℚ) (epsR epsI tol : ℚ)
    (fuel : ℕ) :
    ∀ (k : ℕ) (w : List ℚ) (xprev : Coeffs),
      (irlsLoop t y epsR epsI tol fuel k w xprev).converged = false →
        (irlsLoop t y epsR epsI tol fuel k w xprev).rounds = k + fuel := by
  induction fuel with
  | zero => intro k w xprev _; simp [irlsLoop]
  | succ fuel ih =>
    intro k w xprev hc
    simp only [irlsLoop] at hc ⊢
    split at hc <;> rename_i hguard
    · simp at hc
    · have h := ih (k + 1)
        (recomputeWeights epsR (residual t y (wlstsq epsI w t y)))
        (wlstsq epsI w t y) hc
      rw [if_neg hguard]
      dsimp only
      omega

/-- If the tolerance check fired, the result's final and previous
estimates witness it (and at least one round ran). -/
lemma irlsLoop_converged (t y : List ℚ) (epsR epsI tol : ℚ) (fuel : ℕ) :
    ∀ (k : ℕ) (w : List ℚ) (xprev : Coeffs),
      (irlsLoop t y epsR epsI tol fuel k w xprev).converged = true →
        0 < (irlsLoop t y epsR epsI tol fuel k w xprev).rounds ∧
        Coeffs.distSq (irlsLoop t y epsR epsI tol fuel k w xprev).x
            (irlsLoop t y epsR epsI tol fuel k w xprev).xprev <
          tol ^ 2 *
            Coeffs.normSq (irlsLoop t y epsR epsI tol fuel k w xprev).x := by
  induction fuel with
  | zero => intro k w xprev hc; simp [irlsLoop] at hc
  | succ fuel ih =>
    intro k w xprev hc
    simp only [irlsLoop] at hc ⊢
    split at hc <;> rename_i hguard
    · simp only [if_pos hguard]
      exact ⟨Nat.succ_pos k, hguard.2⟩
    · have h := ih (k + 1)
        (recomputeWeights epsR (residual t y (wlstsq epsI w t y)))
        (wlstsq epsI w t y) hc
      simp only [if_neg hguard]
      exact h

/-- The first event, when present, carries the round index and the weight
vector the loop was entered with, and the estimate solved from them. -/
lemma irlsLoop_head (t y : List ℚ) (epsR epsI tol : ℚ) (fuel k : ℕ)
    (w : List ℚ) (xprev : Coeffs) (e : StepEvent)
    (h : (irlsLoop t y epsR epsI tol fuel k w xprev).events.head? = some e) :
    e.iiter = k ∧ e.x = wlstsq epsI w t y ∧ e.rw = w := by
  cases fuel with
  | zero => simp [irlsLoop] at h
  | succ fuel =>
    simp only [irlsLoop] at h
    split at h <;> simp only [List.head?_cons, Option.some.injEq] at h <;>
      simp [← h]

/-- The weight vectors of consecutive events are chained by the
`threshR = False` recomputation formula. -/
lemma irlsLoop_weightsChain (t y : List ℚ) (epsR epsI tol : ℚ)
    (fuel : ℕ) :
    ∀ (k : ℕ) (w : List ℚ) (xprev : Coeffs),
      weightsChainOK t y epsR
        (irlsLoop t y epsR epsI tol fuel k w xprev).events := by
  induction fuel with
  | zero => intro k w xprev; simp [irlsLoop, weightsChainOK]
  | succ fuel ih =>
    intro k w xprev
    simp only [irlsLoop]
    split
    · simp [weightsChainOK]
    · have hrec := ih (k + 1)
        (recomputeWeights epsR (residual t y (wlstsq epsI w t y)))
        (wlstsq epsI w t y)
      simp only [weightsChainOK]
      refine ⟨?_, hrec⟩
      intro e2 he2
      obtain ⟨-, -, hrw⟩ := irlsLoop_head t y epsR epsI tol fuel (k + 1)
        (recomputeWeights epsR (residual t y (wlstsq epsI w t y)))
        (wlstsq epsI w t y) e2 he2
      exact hrw

/-- The loop never runs past a satisfied stopping guard. -/
lemma irlsLoop_noMissedStop (t y : List ℚ) (epsR epsI tol : ℚ)
    (fuel : ℕ) :
    ∀ (k : ℕ) (w : List ℚ) (xprev : Coeffs),
      noMissedStop tol xprev
        (irlsLoop t y epsR epsI tol fuel k w xprev).events := by
  induction fuel with
  | zero => intro k w xprev; simp [irlsLoop, noMissedStop]
  | succ fuel ih =>
    intro k w xprev
    simp only [irlsLoop]
    split <;> rename_i hguard
    · simp [noMissedStop]
    · have hrec := ih (k + 1)
        (recomputeWeights epsR (residual t y (wlstsq epsI w t y)))
        (wlstsq epsI w t y)
      simp only [noMissedStop]
      refine ⟨?_, hrec⟩
      rcases he : (irlsLoop t y epsR epsI tol fuel (k + 1)
          (recomputeWeights epsR (residual t y (wlstsq epsI w t y)))
          (wlstsq epsI w t y)).events with - | ⟨e2, rest⟩
      · exact Or.inl rfl
      · exact Or.inr (by simpa [guardHolds] using hguard)

/-- Folding the example's callback over an event list records exactly the
estimates of the events with `iiter > 1` and, per event, either its weight
vector (`iiter > 1`) or a fresh all-ones vector of length `n`. -/
lemma runCallback_spec (evs : List StepEvent) :
    ∀ cb : CallbackIRLS,
      runCallback cb evs =
        ⟨cb.n,
         cb.xirls_hist ++
           (evs.filter (fun e => decide (1 < e.iiter))).map (fun e => e.x),
         cb.rw_hist ++
           evs.map (fun e =>
             if 1 < e.iiter then e.rw else List.replicate cb.n 1)⟩ := by
  induction evs with
  | nil => intro cb; simp [runCallback]
  | cons e evs ih =>
    intro cb
    simp only [runCallback, List.foldl_cons] at ih ⊢
    rw [ih]
    by_cases h : 1 < e.iiter
    · simp [CallbackIRLS.on_step_end, h, List.filter_cons,
        List.append_assoc]
    · simp [CallbackIRLS.on_step_end, h, List.filter_cons,
        List.append_assoc]

/-! ## Claim theorems -/

/-- C3: for the operators of the framework exercised by the example — the
LinearRegression operator and its WeightedOperator decorator — and all
coefficient vectors `x` and data vectors `y`, the inner products satisfy
`⟨A x, y⟩ = ⟨x, Aᵀ y⟩` (exactly, in the rational model; hence within any
floating-point tolerance). -/
theorem C3_adjoint_consistency :
    (∀ (t : List ℚ) (x : Coeffs) (y : List ℚ),
      dot (forward t x) y = Coeffs.inner x (adjoint t y)) ∧
    (∀ (w t : List ℚ) (x : Coeffs) (y : List ℚ),
      dot (wforward w t x) y = Coeffs.inner x (wadjoint w t y)) := by
  have base : ∀ (t : List ℚ) (x : Coeffs) (y : List ℚ),
      dot (forward t x) y = Coeffs.inner x (adjoint t y) := by
    intro t x y
    induction t generalizing y with
    | nil => simp [forward, dot_nil_left, adjoint_nil_left, Coeffs.inner]
    | cons ti t ih =>
      cases y with
      | nil => simp [dot_nil_right, adjoint_nil_right, Coeffs.inner]
      | cons yi y =>
        simp only [forward, List.map_cons, dot_cons, adjoint_cons] at ih ⊢
        rw [ih y]
        simp only [Coeffs.inner]
        ring
  refine ⟨base, fun w t x y => ?_⟩
  rw [wforward, wadjoint, dot_zipWith_mul, base]

set_option maxRecDepth 100000 in
/-- C2: for noise-free data generated exactly as `y = A x_true` by the
linear-regression operator, the plain least-squares solve recovers
`x_true` exactly (in the rational model) whenever the normal-equation
system is nonsingular; in particular the recovery error is below any
positive tolerance such as the spec's `1e-6`. -/
theorem C2_exact_recovery (t : List ℚ) (p : Coeffs)
    (hdet : normalDet 0 (List.replicate (forward t p).length 1) t
      (forward t p) ≠ 0) :
    lstsq t (forward t p) = p := by
  obtain ⟨h1, h2⟩ :=
    momSums_forward (List.replicate (forward t p).length 1) t p
  simp only [normalDet] at hdet
  obtain ⟨p0, p1⟩ := p
  simp only [lstsq, wlstsq, Coeffs.mk.injEq]
  constructor
  · rw [h1, h2, div_eq_iff hdet]
    ring
  · rw [h1, h2, div_eq_iff hdet]
    ring

set_option maxRecDepth 1000000 in
/-- Witness for C2: the end-to-end scenario (`N = 30`, `t = 0..29`,
`x_true = [1, 2]`, `y = A x_true`) satisfies the nonsingularity hypothesis
and the solve recovers `[1, 2]` exactly, hence within `1e-6`. -/
theorem C2_exact_recovery_witness :
    normalDet 0 (List.replicate yClean.length 1) exT yClean ≠ 0 ∧
    lstsq exT yClean = xTrue ∧
    Coeffs.distSq (lstsq exT yClean) xTrue < (1 / 1000000) ^ 2 :=
  ⟨by decide, C2_exact_recovery exT xTrue (by decide), by decide⟩

set_option maxRecDepth 1000000 in
/-- C1: in the end-to-end scenario (`N = 30`, `t = 0..29`,
`x_true = [1, 2]`, outliers `y[1] += 40` and `y[28] -= 20` injected into
the noise-free data), the plain least-squares estimate errs from
`[1, 2]` by more than `0.1` (in L2 norm, stated on squares), while the
IRLS solve with `nouter = 20`, `threshR = False`, `epsR = 1/100`,
`epsI = 0`, `tolIRLS = 1/100` returns an estimate within `0.2` of
`[1, 2]`. -/
theorem C1_outlier_robustness :
    Coeffs.distSq (lstsq exT yOut) xTrue > (1 / 10) ^ 2 ∧
    Coeffs.distSq (irlsSolve exT yOut 20 (1 / 100) 0 (1 / 100)).x xTrue ≤
      (1 / 5) ^ 2 := by
  decide

/-- C4: in every IRLS round (with `threshR = False`), the weight vector
used by a round is the one recomputed from the previous round's residual
by `wᵢ = 1 / max (|rᵢ|, epsR)` — stated both as the chain invariant over
the run's post-step events and componentwise for the recomputation. -/
theorem C4_weight_update (t y : List ℚ) (nouter : ℕ)
    (epsR epsI tol : ℚ) :
    weightsChainOK t y epsR (irlsSolve t y nouter epsR epsI tol).events ∧
    ∀ (r : List ℚ) (i : ℕ), i < r.length →
      (recomputeWeights epsR r).getD i 0 = 1 / max |r.getD i 0| epsR :=
  ⟨irlsLoop_weightsChain t y epsR epsI tol nouter 0 _ _,
   fun r i h => recomputeWeights_getD epsR r i h⟩

/-- C5: with `epsR > 0`, the weight recomputation is well defined on every
residual vector, including those with exactly-zero components: every
divisor `max (|rᵢ|, epsR)` is strictly positive (so no division by zero
occurs — the exact-arithmetic counterpart of "no NaN/Inf") and every
recomputed weight is strictly positive and finite. -/
theorem C5_weight_safety (epsR : ℚ) (h : 0 < epsR) (r : List ℚ) :
    ∀ i < r.length,
      0 < max |r.getD i 0| epsR ∧
      (recomputeWeights epsR r).getD i 0 = 1 / max |r.getD i 0| epsR ∧
      0 < (recomputeWeights epsR r).getD i 0 := by
  intro i hi
  have hm : 0 < max |r.getD i 0| epsR := lt_max_of_lt_right h
  refine ⟨hm, recomputeWeights_getD epsR r i hi, ?_⟩
  rw [recomputeWeights_getD epsR r i hi]
  exact one_div_pos.mpr hm

/-- Witness for C5: a residual vector with exact zeros, `epsR = 1/100`. -/
theorem C5_weight_safety_witness :
    0 < (1 : ℚ) / 100 ∧
    ∀ i < ([0, 5, 0] : List ℚ).length,
      0 < max |([0, 5, 0] : List ℚ).getD i 0| ((1 : ℚ) / 100) ∧
      (recomputeWeights ((1 : ℚ) / 100) [0, 5, 0]).getD i 0 =
        1 / max |([0, 5, 0] : List ℚ).getD i 0| ((1 : ℚ) / 100) ∧
      0 < (recomputeWeights ((1 : ℚ) / 100) [0, 5, 0]).getD i 0 :=
  ⟨by norm_num, C5_weight_safety ((1 : ℚ) / 100) (by norm_num) [0, 5, 0]⟩

/-- C6: whenever at least one round runs, the first post-step event of an
IRLS solve carries round index `0`, the initial all-ones weight vector of
length `m = y.length` (not yet informed by any residual), and the estimate
solved from those weights. -/
theorem C6_round0_weights (t y : List ℚ) (nouter : ℕ)
    (epsR epsI tol : ℚ) (h : 0 < nouter) :
    ∃ e, (irlsSolve t y nouter epsR epsI tol).events.head? = some e ∧
      e.iiter = 0 ∧ e.rw = List.replicate y.length 1 ∧
      e.x = wlstsq epsI (List.replicate y.length 1) t y := by
  cases nouter with
  | zero => omega
  | succ n =>
    refine ⟨⟨0, wlstsq epsI (List.replicate y.length 1) t y,
      List.replicate y.length 1⟩, ?_, rfl, rfl, rfl⟩
    simp only [irlsSolve, irlsLoop]
    split <;> rfl

/-- Witness for C6: a two-sample solve with one round. -/
theorem C6_round0_weights_witness :
    0 < 1 ∧
    ∃ e, (irlsSolve [0, 1] [3, 5] 1 1 0 1).events.head? = some e ∧
      e.iiter = 0 ∧ e.rw = List.replicate ([3, 5] : List ℚ).length 1 ∧
      e.x = wlstsq 0 (List.replicate ([3, 5] : List ℚ).length 1)
        [0, 1] [3, 5] :=
  ⟨Nat.one_pos, C6_round0_weights [0, 1] [3, 5] 1 1 0 1 Nat.one_pos⟩

/-- C7: every IRLS solve terminates with at most `nouter` rounds (one
event per round); if it stopped through the tolerance check then at least
one round ran and the final two estimates satisfy the relative-change
bound; if the check never fired it runs exactly `nouter` rounds; and it
never continues past a round whose stopping guard held. -/
theorem C7_termination (t y : List ℚ) (nouter : ℕ) (epsR epsI tol : ℚ) :
    (irlsSolve t y nouter epsR epsI tol).rounds ≤ nouter ∧
    (irlsSolve t y nouter epsR epsI tol).rounds =
      (irlsSolve t y nouter epsR epsI tol).events.length ∧
    ((irlsSolve t y nouter epsR epsI tol).converged = true →
      0 < (irlsSolve t y nouter epsR epsI tol).rounds ∧
      Coeffs.distSq (irlsSolve t y nouter epsR epsI tol).x
          (irlsSolve t y nouter epsR epsI tol).xprev <
        tol ^ 2 * Coeffs.normSq (irlsSolve t y nouter epsR epsI tol).x) ∧
    ((irlsSolve t y nouter epsR epsI tol).converged = false →
      (irlsSolve t y nouter epsR epsI tol).rounds = nouter) ∧
    noMissedStop tol ⟨0, 0⟩ (irlsSolve t y nouter epsR epsI tol).events := by
  refine ⟨?_, ?_, ?_, ?_, ?_⟩
  · simpa using irlsLoop_rounds_le t y epsR epsI tol nouter 0
      (List.replicate y.length 1) ⟨0, 0⟩
  · simpa using irlsLoop_events_length t y epsR epsI tol nouter 0
      (List.replicate y.length 1) ⟨0, 0⟩
  · exact irlsLoop_converged t y epsR epsI tol nouter 0
      (List.replicate y.length 1) ⟨0, 0⟩
  · intro hc
    simpa using irlsLoop_not_converged t y epsR epsI tol nouter 0
      (List.replicate y.length 1) ⟨0, 0⟩ hc
  · exact irlsLoop_noMissedStop t y epsR epsI tol nouter 0
      (List.replicate y.length 1) ⟨0, 0⟩

/-- C8: an IRLS solve restricted to one round (`nouter = 1`, so the
weights stay at their initial all-ones value, with no ridge term) returns
exactly the plain unweighted least-squares solution. -/
theorem C8_weight_idempotence (t y : List ℚ) (epsR tol : ℚ) :
    (irlsSolve t y 1 epsR 0 tol).x = lstsq t y := by
  simp [irlsSolve, irlsLoop, lstsq]

/-- C9: the convenience least-squares entry point behind the example's `/`
operation coincides with constructing an LSQRSolver (damping `0`) and
invoking it, and its structured result carries the minimizer (the plain
least-squares solution), an iteration count, and the achieved (squared)
residual norm of that minimizer. -/
theorem C9_div_equiv_lsqr (t y : List ℚ) :
    solveLeastSquares t y = LSQRSolver.invoke ⟨t, 0⟩ y ∧
    opDiv t y = lstsq t y ∧
    (solveLeastSquares t y).x = lstsq t y ∧
    (solveLeastSquares t y).rnormSq =
      normSq (residual t y (lstsq t y)) := by
  refine ⟨?_, rfl, rfl, rfl⟩
  simp [solveLeastSquares, LSQRSolver.invoke, lstsq]

/-- C10: observing any IRLS solve through the example's `CallbackIRLS`
(starting from empty histories), the recorded solution history consists of
exactly the estimates of the events with `iiter > 1` — the solutions of
rounds with `iiter ≤ 1` are never recorded — and the weight history gets,
per event, the solver's weight vector when `iiter > 1` and a freshly
constructed all-ones vector of length `n` otherwise. -/
theorem C10_callback_histories (n : ℕ) (evs : List StepEvent) :
    (runCallback (CallbackIRLS.init n) evs).xirls_hist =
      (evs.filter (fun e => decide (1 < e.iiter))).map (fun e => e.x) ∧
    (runCallback (CallbackIRLS.init n) evs).rw_hist =
      evs.map (fun e =>
        if 1 < e.iiter then e.rw else List.replicate n 1) := by
  rw [runCallback_spec]
  simp [CallbackIRLS.init]

end PylopsLinRegr
